import Mathlib

/-!
# Network diagnostics platform: probes, fallback policy and batch handlers

A shallow embedding of `src/api/handlers.go`.  The network is an explicit
parameter (`Net`): every call the handlers make into the operating system or
into a library (`ping.NewPinger`, `pinger.Run`, `net.DialTimeout`,
`client.Get`, reading a response body, the clock) is answered by a field of
that record.  The goroutines of the two batch handlers are modelled as small
programs over two buffered channels (`sem` and `ch`) that a scheduler
interleaves one step at a time.
-/

namespace NetDiag

/-! ## Durations and numbers -/

/-- Go `time.Duration`: a signed 64-bit count of nanoseconds. -/
abbrev Duration := Int

def Millisecond : Duration := 1000000

def Second : Duration := 1000 * Millisecond

def Hour : Duration := 3600 * Second

/-- Two's-complement wrap-around of 64-bit signed arithmetic. -/
def wrap64 (x : Int) : Int := (x + 2 ^ 63) % 2 ^ 64 - 2 ^ 63

/-- Go `Duration.Milliseconds`: integer division by 1e6, truncating toward zero. -/
def Milliseconds (d : Duration) : Int := Int.tdiv d 1000000

/-- Go `float64` values, kept as the expression that computes them: the
rounding of IEEE arithmetic is not modelled. -/
inductive Float64 where
  | ofInt (n : Int)
  | div (a b : Float64)
  | mul (a b : Float64)
  | seconds (d : Duration)
  deriving DecidableEq, Repr

/-- The dynamically typed values stored in a `map[string]any` result. -/
inductive Value where
  | int (n : Int)
  | float (x : Float64)
  deriving DecidableEq, Repr

/-- Go `map[string]any`, as its list of key/value pairs. -/
abbrev Result := List (String × Value)

/-! ## The network -/

/-- `ping.Statistics` of the go-ping library (the fields the code reads). -/
structure Statistics where
  PacketsSent : Int
  PacketsRecv : Int
  PacketLoss : Float64
  AvgRtt : Duration
  MinRtt : Duration
  MaxRtt : Duration
  StdDevRtt : Duration
  Duration : Duration
  deriving DecidableEq, Repr

/-- One `net.DialTimeout` call together with the `time.Since(start)` that
follows it: the error (if any) and the measured round-trip time. -/
structure Attempt where
  err : Option String
  rtt : Duration
  deriving DecidableEq, Repr

/-- A response body as a reader: the bytes it delivers and then either
end-of-stream (`none`) or a read error (`some cause`). -/
structure BodyStream where
  data : List UInt8
  err : Option String
  deriving DecidableEq, Repr

/-- Go `http.Response` (the fields the code reads). -/
structure HTTPResponse where
  StatusCode : Int
  Body : BodyStream
  deriving DecidableEq, Repr

/-- Everything outside the program, as seen by one goroutine. -/
structure Net where
  /-- Error returned by `ping.NewPinger(host)`, if any. -/
  NewPinger : String → Option String
  /-- Error returned by `pinger.Run()` for host, count and timeout, if any. -/
  PingerRun : String → Int → Duration → Option String
  /-- Value of `pinger.Statistics()` after a run. -/
  PingerStatistics : String → Int → Duration → Statistics
  /-- The i-th `net.DialTimeout("tcp", host:port, timeout)` of a probe. -/
  Dial : String → Int → Duration → Nat → Attempt
  /-- Outcome of `client.Get(url)` with the given client timeout. -/
  Get : String → Duration → Except String HTTPResponse
  /-- Value of `time.Since(start).Milliseconds()` after fetching url. -/
  ElapsedMs : String → Int

/-! ## Probes -/

/-- `runICMPPing` (handlers.go 48-71). -/
def runICMPPing (net : Net) (host : String) (count : Int) (timeout : Duration) :
    Except String Result :=
  match net.NewPinger host with
  | some err => .error err
  | none =>
    let pingerTimeout := wrap64 (wrap64 (count * timeout) + 2 * Second)
    match net.PingerRun host count pingerTimeout with
    | some err => .error err
    | none =>
      let stats := net.PingerStatistics host count pingerTimeout
      .ok [("packets_sent", .int stats.PacketsSent),
           ("packets_recv", .int stats.PacketsRecv),
           ("packet_loss", .float stats.PacketLoss),
           ("avg_rtt_ms", .int (Milliseconds stats.AvgRtt)),
           ("min_rtt_ms", .int (Milliseconds stats.MinRtt)),
           ("max_rtt_ms", .int (Milliseconds stats.MaxRtt)),
           ("stddev_ms", .int (Milliseconds stats.StdDevRtt)),
           ("duration_seconds", .float (.seconds stats.Duration))]

/-- The loop variables of `runTCPing`. -/
structure TCPAcc where
  success : Int
  sumRTT : Duration
  min : Duration
  max : Duration
  deriving DecidableEq, Repr

/-- One iteration of the loop of `runTCPing` (handlers.go 79-93). -/
def tcpingIter (acc : TCPAcc) (a : Attempt) : TCPAcc :=
  match a.err with
  | none =>
    { success := acc.success + 1
      sumRTT := wrap64 (acc.sumRTT + a.rtt)
      min := if a.rtt < acc.min then a.rtt else acc.min
      max := if a.rtt > acc.max then a.rtt else acc.max }
  | some _ => acc

/-- The loop of `runTCPing` over the attempts in the order they are made. -/
def tcpingLoop : List Attempt → TCPAcc → TCPAcc
  | [], acc => acc
  | a :: rest, acc => tcpingLoop rest (tcpingIter acc a)

/-- What `runTCPing` returns from the final loop variables (handlers.go 95-110). -/
def tcpingReport (count : Int) (acc : TCPAcc) : Result × Option String :=
  if acc.success = 0 then
    ([("packets_sent", .int count),
      ("packets_recv", .int acc.success),
      ("packet_loss", .int 100)], some "no tcp success")
  else
    let avg : Duration := Int.tdiv acc.sumRTT acc.success
    ([("packets_sent", .int count),
      ("packets_recv", .int acc.success),
      ("packet_loss", .float (.mul (.div (.ofInt (count - acc.success)) (.ofInt count)) (.ofInt 100))),
      ("avg_rtt_ms", .int (Milliseconds avg)),
      ("min_rtt_ms", .int (Milliseconds acc.min)),
      ("max_rtt_ms", .int (Milliseconds acc.max))], none)

/-- The attempts a TCP-connect probe makes: one dial per `i < count`. -/
def dialAttempts (net : Net) (host : String) (port : Int) (timeout : Duration) (count : Int) :
    List Attempt :=
  (List.range count.toNat).map (net.Dial host port timeout)

/-- `runTCPing` (handlers.go 73-111): the map and the error it returns. -/
def runTCPing (net : Net) (host : String) (port : Int) (timeout : Duration) (count : Int) :
    Result × Option String :=
  tcpingReport count (tcpingLoop (dialAttempts net host port timeout count) ⟨0, 0, Hour, 0⟩)

/-! ## Requests and responses -/

/-- The locally declared `entry` of `BulkPingHandler` (handlers.go 294-298).
A nil `Out` map is `none`. -/
structure entry where
  Host : String
  Out : Option Result
  Err : String
  deriving DecidableEq, Repr

/-- The locally declared `res` of `BulkHTMLHandler` (handlers.go 343-349). -/
structure res where
  URL : String
  StatusCode : Int
  HasKeyword : Bool
  DurationMs : Int
  Error : String
  deriving DecidableEq, Repr

/-- The values the handlers put in a `gin.H` response object. -/
inductive Field where
  | null
  | str (s : String)
  | map (m : Result)
  | pingResults (r : List entry)
  | htmlResults (r : List res)
  deriving DecidableEq, Repr

/-- A call of `c.JSON(status, gin.H{...})`. -/
structure Response where
  status : Int
  body : List (String × Field)
  deriving DecidableEq, Repr

/-- The JSON object an `entry` is encoded as, following its struct tags
(`err` carries `omitempty`). -/
def entry.toJSON (e : entry) : List (String × Field) :=
  [("host", .str e.Host),
   ("out", match e.Out with
           | some m => .map m
           | none => .null)]
  ++ (if e.Err = "" then [] else [("err", .str e.Err)])

/-- Request body of `PingHandler`. -/
structure PingReq where
  Host : String
  Count : Int
  TimeoutMs : Int
  deriving DecidableEq, Repr

/-- Request body of `BulkPingHandler`. -/
structure BulkPingReq where
  Hosts : List String
  Count : Int
  TimeoutMs : Int
  deriving DecidableEq, Repr

/-- Request body of `BulkHTMLHandler`; Go strings are byte sequences and the
keyword is compared with body bytes, so it is kept as bytes. -/
structure BulkHTMLReq where
  URLs : List String
  Keyword : List UInt8
  TimeoutMs : Int
  deriving DecidableEq, Repr

/-- `time.Duration(ms) * time.Millisecond`. -/
def msToDuration (ms : Int) : Duration := wrap64 (ms * Millisecond)

/-! ## Single-target ping with fallback -/

/-- Defaults applied by `PingHandler` (handlers.go 29-34). -/
def pingCount (req : PingReq) : Int := if req.Count ≤ 0 then 4 else req.Count

def pingTimeoutMs (req : PingReq) : Int := if req.TimeoutMs ≤ 0 then 2000 else req.TimeoutMs

/-- `PingHandler` (handlers.go 19-46).  A request body that `BindJSON`
rejects is `none`. -/
def PingHandler (net : Net) (body : Option PingReq) : Response :=
  match body with
  | none => ⟨400, [("error", .str "invalid json")]⟩
  | some req =>
    match runICMPPing net req.Host (pingCount req) (msToDuration (pingTimeoutMs req)) with
    | .error err =>
      match runTCPing net req.Host 80 (msToDuration (pingTimeoutMs req)) (pingCount req) with
      | (_, some terr) =>
        ⟨500, [("error", .str "ping failed"), ("detail", .str (err ++ " | " ++ terr))]⟩
      | (tres, none) => ⟨200, [("method", .str "tcp-fallback"), ("result", .map tres)]⟩
    | .ok r => ⟨200, [("method", .str "icmp"), ("result", .map r)]⟩

/-! ## Batch workers: what one goroutine computes -/

/-- Defaults applied by `BulkPingHandler` (handlers.go 288-293). -/
def bulkPingCount (req : BulkPingReq) : Int := if req.Count ≤ 0 then 3 else req.Count

def bulkPingTimeoutMs (req : BulkPingReq) : Int :=
  if req.TimeoutMs ≤ 0 then 2000 else req.TimeoutMs

/-- The entry a `BulkPingHandler` goroutine builds for host `h`
(handlers.go 305-317). -/
def pingEntry (net : Net) (req : BulkPingReq) (h : String) : entry :=
  match runICMPPing net h (bulkPingCount req) (msToDuration (bulkPingTimeoutMs req)) with
  | .error err =>
    match runTCPing net h 80 (msToDuration (bulkPingTimeoutMs req)) (bulkPingCount req) with
    | (_, some terr) => { Host := h, Out := none, Err := err ++ " | " ++ terr }
    | (tout, none) => { Host := h, Out := some tout, Err := "" }
  | .ok out => { Host := h, Out := some out, Err := "" }

/-- Go `strings.Contains` on byte strings: some suffix of `s` starts with `substr`. -/
def Contains {α : Type} [BEq α] : List α → List α → Bool
  | [], substr => substr.isPrefixOf []
  | c :: cs, substr => substr.isPrefixOf (c :: cs) || Contains cs substr

/-- `io.ReadAll(io.LimitReader(body, n))`: the bytes read and the error.
The limited reader stops at `n` bytes without touching the stream again, so
the stream's error is met only when fewer than `n` bytes were delivered. -/
def readAllLimited (body : BodyStream) (n : Nat) : List UInt8 × Option String :=
  if n ≤ body.data.length then (body.data.take n, none) else (body.data, body.err)

/-- Defaults applied by `BulkHTMLHandler` (handlers.go 339-341). -/
def bulkHTMLTimeoutMs (req : BulkHTMLReq) : Int :=
  if req.TimeoutMs ≤ 0 then 5000 else req.TimeoutMs

/-- The result a `BulkHTMLHandler` goroutine builds for url `u`
(handlers.go 356-372); the error of `io.ReadAll` is discarded, as in the source. -/
def htmlRes (net : Net) (req : BulkHTMLReq) (u : String) : res :=
  match net.Get u (msToDuration (bulkHTMLTimeoutMs req)) with
  | .error err => { URL := u, StatusCode := 0, HasKeyword := false, DurationMs := 0, Error := err }
  | .ok resp =>
    let body := (readAllLimited resp.Body (1024 * 200)).1
    { URL := u
      StatusCode := resp.StatusCode
      HasKeyword := (req.Keyword != []) && Contains body req.Keyword
      DurationMs := net.ElapsedMs u
      Error := "" }

/-! ## Goroutines, the semaphore and the result channel -/

/-- The probe calls a batch worker makes while it holds its token. -/
inductive Probe where
  | icmp
  | tcp
  | get
  | readBody
  deriving DecidableEq, Repr

/-- What a batch goroutine executes, one step at a time: `sem <- struct{}{}`,
a probe call, `ch <- e`, and `<-sem`. -/
inductive Action (E : Type) where
  | acquire
  | probe (p : Probe)
  | send (e : E)
  | release
  deriving DecidableEq, Repr

/-- The state of one batch call: what each goroutine still has to execute,
the number of tokens buffered in `sem`, the entries buffered in `ch` (oldest
first), and the slice the handler has built so far. -/
structure State (E : Type) where
  workers : List (List (Action E))
  sem : Nat
  ch : List E
  resp : List E
  deriving DecidableEq, Repr

/-- Who the scheduler lets run next: the handler or the i-th goroutine. -/
inductive Choice where
  | main
  | worker (i : Nat)
  deriving DecidableEq, Repr

/-- One step of the i-th goroutine.  A send on a full channel and a receive
from an empty one block: the state is unchanged.  `semCap` and `chCap` are
the capacities of `sem` and `ch`. -/
def stepWorker {E : Type} (semCap chCap : Nat) (i : Nat) (s : State E) : State E :=
  match s.workers[i]? with
  | none => s
  | some [] => s
  | some (.acquire :: rest) =>
    if s.sem < semCap then { s with sem := s.sem + 1, workers := s.workers.set i rest } else s
  | some (.probe _ :: rest) => { s with workers := s.workers.set i rest }
  | some (.send e :: rest) =>
    if s.ch.length < chCap then { s with ch := s.ch ++ [e], workers := s.workers.set i rest }
    else s
  | some (.release :: rest) =>
    if 0 < s.sem then { s with sem := s.sem - 1, workers := s.workers.set i rest } else s

/-- One step of the handler's receive loop `for i := 0; i < n; i++ { resp =
append(resp, <-ch) }`: it blocks while `ch` is empty and stops after `n`
receives. -/
def stepMain {E : Type} (n : Nat) (s : State E) : State E :=
  if s.resp.length < n then
    match s.ch with
    | [] => s
    | e :: rest => { s with ch := rest, resp := s.resp ++ [e] }
  else s

/-- One scheduling step of a batch of `n` targets (`ch` has capacity `n`). -/
def step {E : Type} (semCap n : Nat) (c : Choice) (s : State E) : State E :=
  match c with
  | .main => stepMain n s
  | .worker i => stepWorker semCap n i s

/-- Run a schedule from a state. -/
def exec {E : Type} (semCap n : Nat) : List Choice → State E → State E
  | [], s => s
  | c :: cs, s => exec semCap n cs (step semCap n c s)

/-- The goroutine, if any, that puts its entry on `ch` in a scheduling step. -/
def sendsAt {E : Type} (n : Nat) : Choice → State E → List Nat
  | .main, _ => []
  | .worker i, s =>
    match s.workers[i]? with
    | some (.send _ :: _) => if s.ch.length < n then [i] else []
    | _ => []

/-- The goroutines in the order in which they send on `ch` during a schedule:
the completion order of the batch. -/
def sendOrder {E : Type} (semCap n : Nat) : List Choice → State E → List Nat
  | [], _ => []
  | c :: cs, s => sendsAt n c s ++ sendOrder semCap n cs (step semCap n c s)

/-- A goroutine holds a token when it has executed its acquire (none is left
to execute) and not yet its release (one is left to execute). -/
def holdsToken {E : Type} (w : List (Action E)) : Bool :=
  !(w.any fun a => match a with
      | .acquire => true
      | _ => false)
  && (w.any fun a => match a with
      | .release => true
      | _ => false)

/-- Number of goroutines between acquiring and releasing the token. -/
def inflight {E : Type} (s : State E) : Nat := s.workers.countP holdsToken

/-- All goroutines have run to their end. -/
def allDone {E : Type} (s : State E) : Bool := s.workers.all List.isEmpty

/-! ## The two batch handlers -/

/-- The goroutine `BulkPingHandler` starts for host `h` (handlers.go 303-320):
one program per execution path. -/
def pingWorker (net : Net) (req : BulkPingReq) (h : String) : List (Action entry) :=
  match runICMPPing net h (bulkPingCount req) (msToDuration (bulkPingTimeoutMs req)) with
  | .error _ =>
    [.acquire, .probe .icmp, .probe .tcp, .send (pingEntry net req h), .release]
  | .ok _ => [.acquire, .probe .icmp, .send (pingEntry net req h), .release]

/-- The goroutine `BulkHTMLHandler` starts for url `u` (handlers.go 354-374):
the early-return path after a failed `client.Get` and the normal path. -/
def htmlWorker (net : Net) (req : BulkHTMLReq) (u : String) : List (Action res) :=
  match net.Get u (msToDuration (bulkHTMLTimeoutMs req)) with
  | .error _ => [.acquire, .probe .get, .send (htmlRes net req u), .release]
  | .ok _ => [.acquire, .probe .get, .probe .readBody, .send (htmlRes net req u), .release]

/-- State of `BulkPingHandler` once its goroutines are started; `nets i` is
the network as the i-th goroutine meets it. -/
def bulkPingInit (nets : Nat → Net) (req : BulkPingReq) : State entry :=
  { workers := req.Hosts.mapIdx fun i h => pingWorker (nets i) req h
    sem := 0
    ch := []
    resp := [] }

/-- State of `BulkHTMLHandler` once its goroutines are started. -/
def bulkHTMLInit (nets : Nat → Net) (req : BulkHTMLReq) : State res :=
  { workers := req.URLs.mapIdx fun i u => htmlWorker (nets i) req u
    sem := 0
    ch := []
    resp := [] }

/-- The batch of `BulkPingHandler` after a schedule: `sem` has capacity 25
and `ch` capacity `len(req.Hosts)` (handlers.go 299-300). -/
def bulkPingRun (nets : Nat → Net) (req : BulkPingReq) (sched : List Choice) : State entry :=
  exec 25 req.Hosts.length sched (bulkPingInit nets req)

/-- The batch of `BulkHTMLHandler` after a schedule: `sem` has capacity 20
and `ch` capacity `len(req.URLs)` (handlers.go 350-351). -/
def bulkHTMLRun (nets : Nat → Net) (req : BulkHTMLReq) (sched : List Choice) : State res :=
  exec 20 req.URLs.length sched (bulkHTMLInit nets req)

/-- `BulkPingHandler` (handlers.go 274-327) under a schedule of its
goroutines; `none` while the handler is still blocked in its receive loop. -/
def BulkPingHandler (nets : Nat → Net) (body : Option BulkPingReq) (sched : List Choice) :
    Option Response :=
  match body with
  | none => some ⟨400, [("error", .str "invalid json")]⟩
  | some req =>
    if req.Hosts.length = 0 then some ⟨400, [("error", .str "no hosts")]⟩
    else
      let s := bulkPingRun nets req sched
      if s.resp.length = req.Hosts.length then some ⟨200, [("results", .pingResults s.resp)]⟩
      else none

/-- `BulkHTMLHandler` (handlers.go 329-381) under a schedule of its
goroutines; `none` while the handler is still blocked in its receive loop. -/
def BulkHTMLHandler (nets : Nat → Net) (body : Option BulkHTMLReq) (sched : List Choice) :
    Option Response :=
  match body with
  | none => some ⟨400, [("error", .str "invalid json")]⟩
  | some req =>
    let s := bulkHTMLRun nets req sched
    if s.resp.length = req.URLs.length then some ⟨200, [("results", .htmlResults s.resp)]⟩
    else none

/-! ## Batches seen from outside -/

/-- A batch call: which handler, the network its goroutines meet, and the
decoded request. -/
inductive Batch where
  | ping (nets : Nat → Net) (req : BulkPingReq)
  | html (nets : Nat → Net) (req : BulkHTMLReq)

/-- The submitted targets, in submission order. -/
def Batch.targets : Batch → List String
  | .ping _ req => req.Hosts
  | .html _ req => req.URLs

/-- The handler's response under a schedule, if it has returned. -/
def Batch.respond : Batch → List Choice → Option Response
  | .ping nets req, sched => BulkPingHandler nets (some req) sched
  | .html nets req, sched => BulkHTMLHandler nets (some req) sched

/-- The Host or URL labels of a results list. -/
def Field.targets : Field → List String
  | .pingResults r => r.map entry.Host
  | .htmlResults r => r.map res.URL
  | _ => []

/-- The labels of the results of a success response, in the order returned. -/
def Response.resultTargets (r : Response) : Option (List String) :=
  if r.status = 200 then (r.body.lookup "results").map Field.targets else none

/-- The labels of the results the batch returns under a schedule. -/
def Batch.resultTargets (b : Batch) (sched : List Choice) : Option (List String) :=
  (b.respond sched).bind Response.resultTargets

/-- The completion order of the batch under a schedule. -/
def Batch.order : Batch → List Choice → List Nat
  | .ping nets req, sched => sendOrder 25 req.Hosts.length sched (bulkPingInit nets req)
  | .html nets req, sched => sendOrder 20 req.URLs.length sched (bulkHTMLInit nets req)

/-- Number of goroutines holding a token after a schedule. -/
def Batch.inflight : Batch → List Choice → Nat
  | .ping nets req, sched => NetDiag.inflight (bulkPingRun nets req sched)
  | .html nets req, sched => NetDiag.inflight (bulkHTMLRun nets req sched)

/-- Number of tokens in the semaphore after a schedule. -/
def Batch.tokens : Batch → List Choice → Nat
  | .ping nets req, sched => (bulkPingRun nets req sched).sem
  | .html nets req, sched => (bulkHTMLRun nets req sched).sem

/-- Whether every goroutine of the batch has finished after a schedule. -/
def Batch.finished : Batch → List Choice → Bool
  | .ping nets req, sched => allDone (bulkPingRun nets req sched)
  | .html nets req, sched => allDone (bulkHTMLRun nets req sched)

/-! ## Notions used in the proofs -/

section ProofNotions

variable {E : Type}

/-- The entry a goroutine has still to send, if any. -/
def pendingSend : List (Action E) → Option E
  | [] => none
  | .acquire :: rest => pendingSend rest
  | .probe _ :: rest => pendingSend rest
  | .send e :: _ => some e
  | .release :: rest => pendingSend rest

/-- Number of steps a batch still has to make: the actions its goroutines
have left plus the receives the handler has left. -/
def stepsLeft (n : Nat) (s : State E) : Nat :=
  (s.workers.map List.length).sum + (n - s.resp.length)

/-- Rest of a goroutine that holds its token and has not sent yet: probe
calls, then the send, then the release. -/
inductive Running : List (Action E) → Prop where
  | send (e : E) : Running [.send e, .release]
  | probe (p : Probe) {w : List (Action E)} : Running w → Running (.probe p :: w)

/-- The shapes the rest of a goroutine takes: finished, not started, running,
or about to release. -/
inductive WF : List (Action E) → Prop where
  | done : WF []
  | idle {w : List (Action E)} : Running w → WF (.acquire :: w)
  | running {w : List (Action E)} : Running w → WF w
  | sent : WF [.release]

/-- The invariant of a batch whose goroutines send `entries` and whose
semaphore has capacity `semCap`. -/
structure Inv (semCap : Nat) (entries : List E) (s : State E) : Prop where
  wf : ∀ w ∈ s.workers, WF w
  sem_eq : s.sem = inflight s
  sem_le : s.sem ≤ semCap
  perm : (s.resp ++ s.ch ++ s.workers.filterMap pendingSend).Perm entries

/-- The entry the i-th goroutine has still to send. -/
def pendAt (ws : List (List (Action E))) (i : Nat) : Option E := (ws[i]?).bind pendingSend

/-- A goroutine of a batch as it is started: the acquire, then probe calls,
the send and the release. -/
def Program (w : List (Action E)) : Prop := ∃ r, w = .acquire :: r ∧ Running r

/-- State of a batch whose goroutines have just been started. -/
def initState (progs : List (List (Action E))) : State E :=
  { workers := progs, sem := 0, ch := [], resp := [] }

/-- The round-trip times of the attempts that connected, in order. -/
def successRTTs (attempts : List Attempt) : List Duration :=
  attempts.filterMap fun a => match a.err with
    | none => some a.rtt
    | some _ => none

end ProofNotions

/-! ## Example networks and schedules -/

/-- A network where the echo probe answers, every dial connects in 5 ms and
every fetch returns an empty 200 response. -/
def echoNet : Net where
  NewPinger := fun _ => none
  PingerRun := fun _ _ _ => none
  PingerStatistics := fun _ count _ => ⟨count, count, .ofInt 0, 0, 0, 0, 0, 0⟩
  Dial := fun _ _ _ _ => ⟨none, 5 * Millisecond⟩
  Get := fun _ _ => .ok ⟨200, ⟨[], none⟩⟩
  ElapsedMs := fun _ => 1

/-- A network where the raw socket of the echo probe cannot be opened and
every dial connects in 5 ms. -/
def noRawSocketNet : Net :=
  { echoNet with NewPinger := fun _ => some "socket: operation not permitted" }

/-- A network where the echo probe cannot be opened and no dial connects. -/
def deadNet : Net :=
  { noRawSocketNet with Dial := fun _ _ _ _ => ⟨some "i/o timeout", 2 * Second⟩ }

/-- Goroutine 1 runs to its end, then goroutine 0, then the handler receives
both entries. -/
def lateFirst : List Choice :=
  [.worker 1, .worker 1, .worker 1, .worker 1, .worker 0, .worker 0, .worker 0, .worker 0,
   .main, .main]

/-- A two-host ping batch on the answering network. -/
def twoHosts : Batch := .ping (fun _ => echoNet) ⟨["a", "b"], 3, 2000⟩

/-- A two-url scan batch on the answering network. -/
def twoURLs : Batch := .html (fun _ => echoNet) ⟨["a", "b"], [], 5000⟩

/-- A network where the raw socket cannot be opened and the only dial takes
two hours to connect. -/
def slowNet : Net :=
  { noRawSocketNet with Dial := fun _ _ _ _ => ⟨none, 2 * Hour⟩ }

/-- A network where every fetch gets a 200 status line and the two body
bytes `ab`, and then times out in the middle of the body. -/
def stallNet : Net :=
  { echoNet with
    Get := fun _ _ =>
      .ok ⟨200, ⟨[97, 98], some "context deadline exceeded (Client.Timeout exceeded while reading body)"⟩⟩ }

/-- A network where every fetch returns the three body bytes `abc`. -/
def abcNet : Net :=
  { echoNet with Get := fun _ _ => .ok ⟨200, ⟨[97, 98, 99], none⟩⟩ }

/-- Goroutine 0 makes five steps, then the handler receives once. -/
def soloRun : List Choice :=
  [.worker 0, .worker 0, .worker 0, .worker 0, .worker 0, .main]

/-- What `runTCPing` reports for three dials that each connect in 5 ms. -/
def tcpThreeOfThree : Result :=
  [("packets_sent", .int 3), ("packets_recv", .int 3),
   ("packet_loss", .float (.mul (.div (.ofInt 0) (.ofInt 3)) (.ofInt 100))),
   ("avg_rtt_ms", .int 5), ("min_rtt_ms", .int 5), ("max_rtt_ms", .int 5)]

/-! ## Invariants of a batch -/

section Machine

variable {E : Type}

theorem Running.holdsToken {w : List (Action E)} (h : Running w) : holdsToken w = true := by
  induction h with
  | send e => simp [NetDiag.holdsToken]
  | probe p _ ih => simpa [NetDiag.holdsToken] using ih

theorem Running.pendingSend_isSome {w : List (Action E)} (h : Running w) :
    ∃ e, pendingSend w = some e := by
  induction h with
  | send e => exact ⟨e, rfl⟩
  | probe p _ ih => simpa [pendingSend] using ih

theorem Running.ne_nil {w : List (Action E)} (h : Running w) : w ≠ [] := by
  cases h <;> simp

theorem holdsToken_acquire (w : List (Action E)) : holdsToken (.acquire :: w) = false := by
  simp [holdsToken]

theorem holdsToken_nil : holdsToken ([] : List (Action E)) = false := by
  simp [holdsToken]

theorem holdsToken_release : holdsToken ([.release] : List (Action E)) = true := by
  simp [holdsToken]

/-- Splitting a list around its i-th element. -/
theorem split_at {α : Type} {l : List α} {i : Nat} {a : α} (h : l[i]? = some a) :
    ∃ pre post, l = pre ++ a :: post ∧ pre.length = i ∧ ∀ b, l.set i b = pre ++ b :: post := by
  induction l generalizing i with
  | nil => simp at h
  | cons x xs ih =>
    cases i with
    | zero =>
      simp at h
      subst h
      exact ⟨[], xs, rfl, rfl, fun b => rfl⟩
    | succ j =>
      simp at h
      obtain ⟨pre, post, h1, h2, h3⟩ := ih h
      refine ⟨x :: pre, post, by simp [h1], by simp [h2], fun b => ?_⟩
      simp [h3 b]

theorem Inv.after_stepWorker {semCap : Nat} {entries : List E} {s : State E}
    (h : Inv semCap entries s) (i : Nat) :
    Inv semCap entries (stepWorker semCap entries.length i s) := by
  unfold NetDiag.stepWorker
  cases hw : s.workers[i]? with
  | none => simpa using h
  | some w =>
    obtain ⟨pre, post, hs, -, hset⟩ := split_at hw
    have hwf : WF w := h.wf w (by simp [hs])
    have hall := h.wf
    have hsem := h.sem_eq
    have hle := h.sem_le
    have hperm := h.perm
    simp only [inflight, hs, List.countP_append, List.countP_cons, List.filterMap_append,
      List.filterMap_cons] at hsem hperm
    rw [hs] at hall
    cases hwf with
    | done => simpa using h
    | idle hr =>
      simp only []
      split_ifs with hlt
      · obtain ⟨e, he⟩ := hr.pendingSend_isSome
        refine ⟨?_, ?_, ?_, ?_⟩
        · intro w hw
          simp only [hset, List.mem_append, List.mem_cons] at hw
          rcases hw with hw | rfl | hw
          · exact hall w (by simp [hw])
          · exact .running hr
          · exact hall w (by simp [hw])
        · simp only [inflight, hset, List.countP_append, List.countP_cons, hr.holdsToken]
          simp only [holdsToken_acquire] at hsem
          simp at hsem ⊢
          omega
        · simpa using hlt
        · simp only [hset, List.filterMap_append, List.filterMap_cons, he]
          simpa [pendingSend, he] using hperm
      · exact h
    | running hr =>
      cases hr with
      | send e =>
        simp only []
        split_ifs with hlt
        · refine ⟨?_, ?_, ?_, ?_⟩
          · intro w hw
            simp only [hset, List.mem_append, List.mem_cons] at hw
            rcases hw with hw | rfl | hw
            · exact hall w (by simp [hw])
            · exact .sent
            · exact hall w (by simp [hw])
          · simp only [inflight, hset, List.countP_append, List.countP_cons, holdsToken_release]
            simpa [(Running.send e).holdsToken] using hsem
          · exact hle
          · simp only [hset, List.filterMap_append, List.filterMap_cons, pendingSend]
            simp only [pendingSend] at hperm
            have hEq : s.resp ++ (s.ch ++ [e]) ++
                (List.filterMap pendingSend pre ++ List.filterMap pendingSend post) =
                s.resp ++ s.ch ++
                  (e :: (List.filterMap pendingSend pre ++ List.filterMap pendingSend post)) := by
              simp
            rw [hEq]
            exact (List.Perm.append_left _ List.perm_middle.symm).trans hperm
        · exact h
      | probe p hr' =>
        simp only []
        obtain ⟨e, he⟩ := hr'.pendingSend_isSome
        refine ⟨?_, ?_, ?_, ?_⟩
        · intro w hw
          simp only [hset, List.mem_append, List.mem_cons] at hw
          rcases hw with hw | rfl | hw
          · exact hall w (by simp [hw])
          · exact .running hr'
          · exact hall w (by simp [hw])
        · simp only [inflight, hset, List.countP_append, List.countP_cons, hr'.holdsToken]
          simpa [(Running.probe p hr').holdsToken] using hsem
        · exact hle
        · simp only [hset, List.filterMap_append, List.filterMap_cons, he]
          simpa [pendingSend, he] using hperm
    | sent =>
      simp only []
      split_ifs with hpos
      · refine ⟨?_, ?_, ?_, ?_⟩
        · intro w hw
          simp only [hset, List.mem_append, List.mem_cons] at hw
          rcases hw with hw | rfl | hw
          · exact hall w (by simp [hw])
          · exact .done
          · exact hall w (by simp [hw])
        · simp only [inflight, hset, List.countP_append, List.countP_cons, holdsToken_nil]
          simp only [holdsToken_release] at hsem
          simp at hsem ⊢
          omega
        · simp only []
          omega
        · simp only [hset, List.filterMap_append, List.filterMap_cons, pendingSend]
          simpa [pendingSend] using hperm
      · exact h

theorem Inv.after_stepMain {semCap : Nat} {entries : List E} {s : State E}
    (h : Inv semCap entries s) : Inv semCap entries (stepMain entries.length s) := by
  unfold NetDiag.stepMain
  split_ifs with hlt
  · cases hch : s.ch with
    | nil => simpa using h
    | cons e rest =>
      refine ⟨h.wf, h.sem_eq, h.sem_le, ?_⟩
      have hperm := h.perm
      rw [hch] at hperm
      simpa using hperm
  · exact h

theorem Inv.after_step {semCap : Nat} {entries : List E} {s : State E}
    (h : Inv semCap entries s) (c : Choice) :
    Inv semCap entries (step semCap entries.length c s) := by
  cases c with
  | main => exact h.after_stepMain
  | worker i => exact h.after_stepWorker i

theorem Inv.after_exec {semCap : Nat} {entries : List E} (sched : List Choice) {s : State E}
    (h : Inv semCap entries s) : Inv semCap entries (exec semCap entries.length sched s) := by
  induction sched generalizing s with
  | nil => exact h
  | cons c cs ih => exact ih (h.after_step c)

end Machine

section Progress

variable {E : Type}

theorem pendingSend_nil_of_all_nil {ws : List (List (Action E))}
    (h : ∀ w ∈ ws, w = []) : ws.filterMap pendingSend = [] := by
  induction ws with
  | nil => rfl
  | cons w ws ih =>
    have hw : w = [] := h w (by simp)
    subst hw
    simpa [pendingSend] using ih (fun w hw => h w (by simp [hw]))

theorem allDone_iff {s : State E} : allDone s = true ↔ ∀ w ∈ s.workers, w = [] := by
  simp [allDone, List.isEmpty_iff]

/-- In a state that is not final some goroutine, or the handler, can make a
step, and that step brings the batch closer to its end. -/
theorem Inv.progress {semCap : Nat} {entries : List E} {s : State E}
    (hcap : 0 < semCap) (h : Inv semCap entries s)
    (hnot : ¬ (s.resp.length = entries.length ∧ allDone s = true)) :
    ∃ c, stepsLeft entries.length (step semCap entries.length c s)
      < stepsLeft entries.length s := by
  by_cases h1 : ∃ w ∈ s.workers, holdsToken w = true
  · obtain ⟨w, hmem, hh⟩ := h1
    obtain ⟨i, hw⟩ := List.mem_iff_getElem?.1 hmem
    obtain ⟨pre, post, hs, -, hset⟩ := split_at hw
    have hsem := h.sem_eq
    have hperm := h.perm.length_eq
    simp only [inflight, hs, List.countP_append, List.countP_cons, List.filterMap_append,
      List.filterMap_cons, hh] at hsem hperm
    refine ⟨.worker i, ?_⟩
    simp only [step, stepWorker, hw]
    cases h.wf w hmem with
    | done => simp [holdsToken_nil] at hh
    | idle hr => simp [holdsToken_acquire] at hh
    | running hr =>
      cases hr with
      | send e =>
        simp only [pendingSend] at hperm
        have hlt : s.ch.length < entries.length := by
          simp at hperm
          omega
        simp only [hlt, if_true, stepsLeft, hset]
        rw [hs]
        simp
      | probe p hr' =>
        simp only [stepsLeft, hset]
        rw [hs]
        simp
    | sent =>
      have hpos : 0 < s.sem := by
        simp at hsem
        omega
      simp only [hpos, if_true, stepsLeft, hset]
      rw [hs]
      simp
  · by_cases h2 : ∃ w ∈ s.workers, w ≠ []
    · obtain ⟨w, hmem, hne⟩ := h2
      obtain ⟨i, hw⟩ := List.mem_iff_getElem?.1 hmem
      obtain ⟨pre, post, hs, -, hset⟩ := split_at hw
      have hzero : s.sem = 0 := by
        rw [h.sem_eq, inflight, List.countP_eq_zero]
        intro w hw hh
        exact h1 ⟨w, hw, hh⟩
      refine ⟨.worker i, ?_⟩
      simp only [step, stepWorker, hw]
      cases h.wf w hmem with
      | done => exact absurd rfl hne
      | idle hr =>
        have hlt : s.sem < semCap := by omega
        simp only [hlt, if_true, stepsLeft, hset]
        rw [hs]
        simp
      | running hr => exact absurd ⟨_, hmem, hr.holdsToken⟩ h1
      | sent => exact absurd ⟨_, hmem, holdsToken_release⟩ h1
    · have hall : ∀ w ∈ s.workers, w = [] := by
        intro w hw
        by_contra hne
        exact h2 ⟨w, hw, hne⟩
      have hperm := h.perm.length_eq
      rw [pendingSend_nil_of_all_nil hall] at hperm
      simp at hperm
      have hlen : s.resp.length ≠ entries.length := fun hl => hnot ⟨hl, allDone_iff.2 hall⟩
      refine ⟨.main, ?_⟩
      have hlt : s.resp.length < entries.length := by omega
      simp only [step, stepMain, hlt, if_true]
      cases hch : s.ch with
      | nil =>
        rw [hch] at hperm
        simp at hperm
        omega
      | cons e rest =>
        simp [stepsLeft]
        omega

/-- No deadlock and no livelock: from any state of a batch there is a
schedule after which every goroutine has finished and the handler has
received one entry per target. -/
theorem Inv.exists_completion {semCap : Nat} {entries : List E}
    (hcap : 0 < semCap) (k : Nat) :
    ∀ s : State E, Inv semCap entries s → stepsLeft entries.length s ≤ k →
      ∃ ext, (exec semCap entries.length ext s).resp.length = entries.length
        ∧ allDone (exec semCap entries.length ext s) = true := by
  induction k with
  | zero =>
    intro s h hk
    by_cases hfin : s.resp.length = entries.length ∧ allDone s = true
    · exact ⟨[], hfin⟩
    · obtain ⟨c, hc⟩ := h.progress hcap hfin
      omega
  | succ k ih =>
    intro s h hk
    by_cases hfin : s.resp.length = entries.length ∧ allDone s = true
    · exact ⟨[], hfin⟩
    · obtain ⟨c, hc⟩ := h.progress hcap hfin
      obtain ⟨ext, hext⟩ := ih _ (h.after_step c) (by omega)
      exact ⟨c :: ext, hext⟩

end Progress

section CompletionOrder

variable {E : Type}

theorem pendAt_set_of_ne {ws : List (List (Action E))} {i j : Nat} (r : List (Action E))
    (hne : i ≠ j) : pendAt (ws.set i r) j = pendAt ws j := by
  simp [pendAt, List.getElem?_set_ne hne]

theorem pendAt_set_self {ws : List (List (Action E))} {i : Nat} {w r : List (Action E)}
    (hw : ws[i]? = some w) : pendAt (ws.set i r) i = pendingSend r := by
  obtain ⟨hlt, -⟩ := List.getElem?_eq_some.1 hw
  simp [pendAt, List.getElem?_set_self hlt]

/-- Replacing the rest of a goroutine by one that sends nothing new keeps
every pending entry where it was. -/
theorem pendAt_set_mono {ws : List (List (Action E))} {i : Nat} {w r : List (Action E)}
    (hw : ws[i]? = some w) (hmono : ∀ e, pendingSend r = some e → pendingSend w = some e)
    (j : Nat) (e : E) (h : pendAt (ws.set i r) j = some e) : pendAt ws j = some e := by
  by_cases hij : i = j
  · subst hij
    rw [pendAt_set_self hw] at h
    simp [pendAt, hw, hmono e h]
  · rwa [pendAt_set_of_ne r hij] at h

/-- What one scheduling step does to the entries already sent and to the
entries still pending. -/
theorem step_sends {semCap : Nat} (n : Nat) {entries : List E} {s : State E}
    (h : Inv semCap entries s) (c : Choice) :
    (step semCap n c s).resp ++ (step semCap n c s).ch
        = s.resp ++ s.ch ++ (sendsAt n c s).filterMap (pendAt s.workers)
      ∧ (∀ i ∈ sendsAt n c s,
          (pendAt s.workers i).isSome = true ∧ pendAt (step semCap n c s).workers i = none)
      ∧ (∀ i e, pendAt (step semCap n c s).workers i = some e → pendAt s.workers i = some e) := by
  cases c with
  | main =>
    simp only [step, stepMain, sendsAt]
    split_ifs with hlt
    · cases hch : s.ch with
      | nil => simp [hch]
      | cons e rest => simp
    · simp
  | worker i =>
    simp only [step, stepWorker, sendsAt]
    cases hw : s.workers[i]? with
    | none => simp
    | some w =>
      have hwf : WF w := h.wf w (List.mem_iff_getElem?.2 ⟨i, hw⟩)
      cases hwf with
      | done => simp
      | idle hr =>
        simp only []
        split_ifs with hlt
        · refine ⟨by simp, by simp, ?_⟩
          exact pendAt_set_mono hw (fun e he => by simpa [pendingSend] using he)
        · simp
      | running hr =>
        cases hr with
        | send e =>
          simp only []
          split_ifs with hlt
          · refine ⟨?_, ?_, ?_⟩
            · simp [pendAt, hw, pendingSend]
            · intro j hj
              simp only [List.mem_singleton] at hj
              subst hj
              refine ⟨by simp [pendAt, hw, pendingSend], ?_⟩
              simp only []
              rw [pendAt_set_self hw]
              rfl
            · exact pendAt_set_mono hw (fun e he => by simp [pendingSend] at he)
          · simp
        | probe p hr' =>
          simp only []
          refine ⟨by simp, by simp, ?_⟩
          exact pendAt_set_mono hw (fun e he => by simpa [pendingSend] using he)
      | sent =>
        simp only []
        split_ifs with hpos
        · refine ⟨by simp, by simp, ?_⟩
          exact pendAt_set_mono hw (fun e he => by simp [pendingSend] at he)
        · simp

/-- Along any schedule the entries received or buffered are the entries of
the goroutines in the order they sent; no goroutine sends twice, and only
goroutines with a pending entry send. -/
theorem exec_sends {semCap : Nat} {entries : List E} (sched : List Choice) :
    ∀ s : State E, Inv semCap entries s →
      (exec semCap entries.length sched s).resp ++ (exec semCap entries.length sched s).ch
          = s.resp ++ s.ch
            ++ (sendOrder semCap entries.length sched s).filterMap (pendAt s.workers)
        ∧ (sendOrder semCap entries.length sched s).Nodup
        ∧ ∀ i ∈ sendOrder semCap entries.length sched s, (pendAt s.workers i).isSome = true := by
  induction sched with
  | nil => intro s _; simp [exec, sendOrder]
  | cons c cs ih =>
    intro s h
    obtain ⟨h1, h2, h3⟩ := step_sends entries.length h c
    obtain ⟨i1, i2, i3⟩ := ih _ (h.after_step c)
    have hsome : ∀ i ∈ sendOrder semCap entries.length cs (step semCap entries.length c s),
        pendAt (step semCap entries.length c s).workers i = pendAt s.workers i := by
      intro i hi
      have := i3 i hi
      obtain ⟨e, he⟩ := Option.isSome_iff_exists.1 this
      rw [he, h3 i e he]
    refine ⟨?_, ?_, ?_⟩
    · simp only [exec, sendOrder, List.filterMap_append]
      rw [i1, h1, List.filterMap_congr hsome]
      simp
    · simp only [sendOrder]
      refine List.nodup_append.2 ⟨?_, i2, ?_⟩
      · cases c with
        | main => simp [sendsAt]
        | worker i =>
          simp only [sendsAt]
          split
          · split_ifs <;> simp
          · simp
      · intro i hi hi'
        have hnone := (h2 i hi).2
        have := i3 i hi'
        rw [hnone] at this
        simp at this
    · intro i hi
      simp only [sendOrder, List.mem_append] at hi
      rcases hi with hi | hi
      · exact (h2 i hi).1
      · rw [← hsome i hi]
        exact i3 i hi

end CompletionOrder

section Runs

variable {E : Type}

theorem Program.sends_entry {w : List (Action E)} (h : Program w) :
    ∃ e, pendingSend w = some e := by
  obtain ⟨r, rfl, hr⟩ := h
  simpa [pendingSend] using hr.pendingSend_isSome

theorem length_filterMap_programs {progs : List (List (Action E))}
    (hp : ∀ w ∈ progs, Program w) : (progs.filterMap pendingSend).length = progs.length := by
  induction progs with
  | nil => rfl
  | cons w ws ih =>
    obtain ⟨e, he⟩ := (hp w (by simp)).sends_entry
    simp [List.filterMap_cons, he, ih (fun w hw => hp w (by simp [hw]))]

theorem exec_append (semCap n : Nat) (a b : List Choice) (s : State E) :
    exec semCap n (a ++ b) s = exec semCap n b (exec semCap n a s) := by
  induction a generalizing s with
  | nil => rfl
  | cons c cs ih => simp [exec, ih]

theorem init_inv (semCap : Nat) {progs : List (List (Action E))}
    (hp : ∀ w ∈ progs, Program w) :
    Inv semCap (progs.filterMap pendingSend) (initState progs) := by
  refine ⟨?_, ?_, Nat.zero_le _, by simp [initState]⟩
  · intro w hw
    obtain ⟨r, rfl, hr⟩ := hp w hw
    exact .idle hr
  · symm
    simp only [initState, inflight, List.countP_eq_zero]
    intro w hw
    obtain ⟨r, rfl, -⟩ := hp w hw
    simp [holdsToken_acquire]

theorem run_inv (semCap : Nat) {n : Nat} {progs : List (List (Action E))}
    (hp : ∀ w ∈ progs, Program w) (hn : progs.length = n) (sched : List Choice) :
    Inv semCap (progs.filterMap pendingSend) (exec semCap n sched (initState progs)) := by
  have h := (init_inv semCap hp).after_exec sched
  rwa [length_filterMap_programs hp, hn] at h

/-- The cap holds in every reachable state. -/
theorem run_inflight_le (semCap : Nat) {n : Nat} {progs : List (List (Action E))}
    (hp : ∀ w ∈ progs, Program w) (hn : progs.length = n) (sched : List Choice) :
    inflight (exec semCap n sched (initState progs)) ≤ semCap := by
  have h := run_inv semCap hp hn sched
  rw [← h.sem_eq]
  exact h.sem_le

/-- Once every goroutine has finished no token is left in the semaphore. -/
theorem run_tokens (semCap : Nat) {n : Nat} {progs : List (List (Action E))}
    (hp : ∀ w ∈ progs, Program w) (hn : progs.length = n) (sched : List Choice)
    (hdone : allDone (exec semCap n sched (initState progs)) = true) :
    (exec semCap n sched (initState progs)).sem = 0 := by
  have h := run_inv semCap hp hn sched
  rw [h.sem_eq, inflight, List.countP_eq_zero]
  intro w hw
  rw [allDone_iff.1 hdone w hw]
  simp [holdsToken_nil]

/-- Every run can be continued to the end of the batch. -/
theorem run_completes (semCap : Nat) (hcap : 0 < semCap) {n : Nat}
    {progs : List (List (Action E))}
    (hp : ∀ w ∈ progs, Program w) (hn : progs.length = n) (sched : List Choice) :
    ∃ ext, (exec semCap n (sched ++ ext) (initState progs)).resp.length = n
      ∧ allDone (exec semCap n (sched ++ ext) (initState progs)) = true := by
  have h := (init_inv semCap hp).after_exec sched
  have hlen : (progs.filterMap pendingSend).length = n := by
    rw [length_filterMap_programs hp, hn]
  obtain ⟨ext, hext⟩ := Inv.exists_completion hcap _ _ h (le_refl _)
  rw [hlen] at hext
  exact ⟨ext, by simpa [exec_append] using hext⟩

/-- When the handler has received its n entries, they are the entries of the
goroutines in completion order, and that order is a permutation of the
goroutines. -/
theorem run_results (semCap : Nat) {n : Nat} {progs : List (List (Action E))}
    (hp : ∀ w ∈ progs, Program w) (hn : progs.length = n) (sched : List Choice)
    (hret : (exec semCap n sched (initState progs)).resp.length = n) :
    (exec semCap n sched (initState progs)).resp
        = (sendOrder semCap n sched (initState progs)).filterMap (pendAt progs)
      ∧ (sendOrder semCap n sched (initState progs)).Perm (List.range n)
      ∧ (exec semCap n sched (initState progs)).resp.Perm (progs.filterMap pendingSend) := by
  have hlen : (progs.filterMap pendingSend).length = n := by
    rw [length_filterMap_programs hp, hn]
  have h := run_inv semCap hp hn sched
  obtain ⟨h1, h2, h3⟩ := exec_sends sched _ (init_inv semCap hp)
  rw [hlen] at h1 h2 h3
  have hl := h.perm.length_eq
  simp only [List.length_append, hlen, hret] at hl
  have hch : (exec semCap n sched (initState progs)).ch = [] :=
    List.eq_nil_of_length_eq_zero (by omega)
  have hpend : List.filterMap pendingSend (exec semCap n sched (initState progs)).workers = [] :=
    List.eq_nil_of_length_eq_zero (by omega)
  have hresp : (exec semCap n sched (initState progs)).resp
      = (sendOrder semCap n sched (initState progs)).filterMap (pendAt progs) := by
    rw [hch] at h1
    simpa [initState] using h1
  refine ⟨hresp, ?_, ?_⟩
  · apply List.Subperm.perm_of_length_le
    · apply List.subperm_of_subset h2
      intro i hi
      have hs := h3 i hi
      simp only [initState, pendAt] at hs
      rw [List.mem_range, ← hn]
      by_contra hge
      rw [List.getElem?_eq_none (by omega)] at hs
      simp at hs
    · rw [List.length_range]
      calc n = (exec semCap n sched (initState progs)).resp.length := hret.symm
        _ = ((sendOrder semCap n sched (initState progs)).filterMap (pendAt progs)).length := by
          rw [← hresp]
        _ ≤ (sendOrder semCap n sched (initState progs)).length :=
          List.length_filterMap_le _ _
  · have hp2 := h.perm
    rw [hch, hpend] at hp2
    simpa using hp2

end Runs

section Labelled

variable {E : Type}

theorem filterMap_mapIdx {α β γ : Type} (g : β → Option γ) :
    ∀ (l : List α) (f : Nat → α → β) (k : Nat → α → γ),
      (∀ i a, g (f i a) = some (k i a)) → (l.mapIdx f).filterMap g = l.mapIdx k := by
  intro l
  induction l with
  | nil => intro f k _; simp
  | cons a l ih =>
    intro f k h
    rw [List.mapIdx_cons, List.mapIdx_cons, List.filterMap_cons, h 0 a]
    simp only
    rw [ih _ _ (fun i a => h (i + 1) a)]

theorem mapIdx_snd (l : List String) : (l.mapIdx fun _ t => t) = l := by
  apply List.ext_getElem?
  intro i
  simp [List.getElem?_mapIdx]

theorem programs_of_mapIdx {targets : List String} {prog : Nat → String → List (Action E)}
    (hprog : ∀ i t, Program (prog i t)) : ∀ w ∈ targets.mapIdx prog, Program w := by
  intro w hw
  obtain ⟨i, hi, rfl⟩ := List.mem_mapIdx.1 hw
  exact hprog i _

/-- A batch whose i-th goroutine sends an entry labelled with the i-th
target returns the labels in completion order. -/
theorem labelled_results (label : E → String) (targets : List String)
    (prog : Nat → String → List (Action E)) (hprog : ∀ i t, Program (prog i t))
    (hlabel : ∀ i t, (pendingSend (prog i t)).map label = some t)
    (semCap : Nat) (sched : List Choice)
    (hret : (exec semCap targets.length sched (initState (targets.mapIdx prog))).resp.length
      = targets.length) :
    (exec semCap targets.length sched (initState (targets.mapIdx prog))).resp.map label
        = (sendOrder semCap targets.length sched (initState (targets.mapIdx prog))).filterMap
            (fun i => targets[i]?)
      ∧ (sendOrder semCap targets.length sched (initState (targets.mapIdx prog))).Perm
          (List.range targets.length)
      ∧ ((exec semCap targets.length sched (initState (targets.mapIdx prog))).resp.map
          label).Perm targets := by
  obtain ⟨h1, h2, h3⟩ := run_results semCap (programs_of_mapIdx hprog)
    (List.length_mapIdx) sched hret
  refine ⟨?_, h2, ?_⟩
  · rw [h1, List.map_filterMap]
    apply List.filterMap_congr
    intro i _
    simp only [pendAt, List.getElem?_mapIdx]
    cases targets[i]? with
    | none => rfl
    | some t => simpa using hlabel i t
  · have := h3.map label
    rw [List.map_filterMap] at this
    have e := filterMap_mapIdx (fun w => (pendingSend w).map label) targets prog
      (fun _ t => t) hlabel
    rwa [e, mapIdx_snd] at this

end Labelled

/-! ## Facts about the two handlers -/

theorem pingEntry_Host (net : Net) (req : BulkPingReq) (h : String) :
    (pingEntry net req h).Host = h := by
  unfold pingEntry
  split
  · split <;> rfl
  · rfl

theorem htmlRes_URL (net : Net) (req : BulkHTMLReq) (u : String) :
    (htmlRes net req u).URL = u := by
  unfold htmlRes
  split <;> rfl

theorem pingWorker_program (net : Net) (req : BulkPingReq) (h : String) :
    Program (pingWorker net req h) := by
  unfold pingWorker
  split
  · exact ⟨_, rfl, .probe _ (.probe _ (.send _))⟩
  · exact ⟨_, rfl, .probe _ (.send _)⟩

theorem htmlWorker_program (net : Net) (req : BulkHTMLReq) (u : String) :
    Program (htmlWorker net req u) := by
  unfold htmlWorker
  split
  · exact ⟨_, rfl, .probe _ (.send _)⟩
  · exact ⟨_, rfl, .probe _ (.probe _ (.send _))⟩

theorem pingWorker_sends (net : Net) (req : BulkPingReq) (h : String) :
    pendingSend (pingWorker net req h) = some (pingEntry net req h) := by
  unfold pingWorker
  split <;> rfl

theorem htmlWorker_sends (net : Net) (req : BulkHTMLReq) (u : String) :
    pendingSend (htmlWorker net req u) = some (htmlRes net req u) := by
  unfold htmlWorker
  split <;> rfl

theorem bulkPing_programs (nets : Nat → Net) (req : BulkPingReq) :
    ∀ w ∈ (bulkPingInit nets req).workers, Program w :=
  programs_of_mapIdx (fun i h => pingWorker_program (nets i) req h)

theorem bulkHTML_programs (nets : Nat → Net) (req : BulkHTMLReq) :
    ∀ w ∈ (bulkHTMLInit nets req).workers, Program w :=
  programs_of_mapIdx (fun i u => htmlWorker_program (nets i) req u)

/-- The cap on goroutines holding a token, for either handler. -/
theorem Batch.inflight_le (b : Batch) (sched : List Choice) :
    b.inflight sched ≤ (match b with
      | .ping _ _ => 25
      | .html _ _ => 20) := by
  cases b with
  | ping nets req =>
    exact run_inflight_le 25 (bulkPing_programs nets req) List.length_mapIdx sched
  | html nets req =>
    exact run_inflight_le 20 (bulkHTML_programs nets req) List.length_mapIdx sched

/-- No token is left once every goroutine has finished, for either handler. -/
theorem Batch.tokens_zero (b : Batch) (sched : List Choice) (h : b.finished sched = true) :
    b.tokens sched = 0 := by
  cases b with
  | ping nets req =>
    exact run_tokens 25 (bulkPing_programs nets req) List.length_mapIdx sched h
  | html nets req =>
    exact run_tokens 20 (bulkHTML_programs nets req) List.length_mapIdx sched h

theorem Response.labels_of_ping (r : List entry) :
    Response.resultTargets ⟨200, [("results", .pingResults r)]⟩ = some (r.map entry.Host) := by
  simp [Response.resultTargets, List.lookup, Field.targets]

theorem Response.labels_of_html (r : List res) :
    Response.resultTargets ⟨200, [("results", .htmlResults r)]⟩ = some (r.map res.URL) := by
  simp [Response.resultTargets, List.lookup, Field.targets]

/-- The labels a batch returns, read off the final state of its run. -/
theorem Batch.resultTargets_ping (nets : Nat → Net) (req : BulkPingReq) (sched : List Choice)
    (labels : List String) (h : (Batch.ping nets req).resultTargets sched = some labels) :
    (bulkPingRun nets req sched).resp.length = req.Hosts.length
      ∧ labels = (bulkPingRun nets req sched).resp.map entry.Host := by
  simp only [Batch.resultTargets, Batch.respond, BulkPingHandler] at h
  split_ifs at h with h0 hlen
  · simp [Response.resultTargets] at h
  · rw [Option.some_bind, Response.labels_of_ping] at h
    exact ⟨hlen, (Option.some.inj h).symm⟩
  · simp at h

theorem Batch.resultTargets_html (nets : Nat → Net) (req : BulkHTMLReq) (sched : List Choice)
    (labels : List String) (h : (Batch.html nets req).resultTargets sched = some labels) :
    (bulkHTMLRun nets req sched).resp.length = req.URLs.length
      ∧ labels = (bulkHTMLRun nets req sched).resp.map res.URL := by
  simp only [Batch.resultTargets, Batch.respond, BulkHTMLHandler] at h
  split_ifs at h with hlen
  · rw [Option.some_bind, Response.labels_of_html] at h
    exact ⟨hlen, (Option.some.inj h).symm⟩
  · simp at h

/-- The labels a batch returns are the targets in completion order. -/
theorem Batch.resultTargets_order (b : Batch) (sched : List Choice) (labels : List String)
    (h : b.resultTargets sched = some labels) :
    labels = (b.order sched).filterMap (fun i => b.targets[i]?)
      ∧ (b.order sched).Perm (List.range b.targets.length)
      ∧ labels.Perm b.targets := by
  cases b with
  | ping nets req =>
    obtain ⟨hlen, rfl⟩ := Batch.resultTargets_ping nets req sched labels h
    exact labelled_results entry.Host req.Hosts (fun i h => pingWorker (nets i) req h)
      (fun i h => pingWorker_program (nets i) req h)
      (fun i h => by simp [pingWorker_sends, pingEntry_Host]) 25 sched hlen
  | html nets req =>
    obtain ⟨hlen, rfl⟩ := Batch.resultTargets_html nets req sched labels h
    exact labelled_results res.URL req.URLs (fun i u => htmlWorker (nets i) req u)
      (fun i u => htmlWorker_program (nets i) req u)
      (fun i u => by simp [htmlWorker_sends, htmlRes_URL]) 20 sched hlen

/-- Every run of a non-empty batch can be continued until the handler
returns its results. -/
theorem Batch.returns (b : Batch) (hne : b.targets ≠ []) (sched : List Choice) :
    ∃ ext labels, b.resultTargets (sched ++ ext) = some labels := by
  cases b with
  | ping nets req =>
    obtain ⟨ext, hext, -⟩ := run_completes 25 (by decide)
      (bulkPing_programs nets req) List.length_mapIdx sched
    refine ⟨ext, (bulkPingRun nets req (sched ++ ext)).resp.map entry.Host, ?_⟩
    have h0 : ¬ req.Hosts.length = 0 := by
      simpa [Batch.targets] using hne
    have hext2 : (bulkPingRun nets req (sched ++ ext)).resp.length = req.Hosts.length := hext
    simp only [Batch.resultTargets, Batch.respond, BulkPingHandler, h0, if_false]
    rw [if_pos hext2, Option.some_bind, Response.labels_of_ping]
  | html nets req =>
    obtain ⟨ext, hext, -⟩ := run_completes 20 (by decide)
      (bulkHTML_programs nets req) List.length_mapIdx sched
    refine ⟨ext, (bulkHTMLRun nets req (sched ++ ext)).resp.map res.URL, ?_⟩
    have hext2 : (bulkHTMLRun nets req (sched ++ ext)).resp.length = req.URLs.length := hext
    simp only [Batch.resultTargets, Batch.respond, BulkHTMLHandler]
    rw [if_pos hext2, Option.some_bind, Response.labels_of_html]

/-! ## Facts about the probes -/

theorem Contains_iff_infix {α : Type} [BEq α] [LawfulBEq α] (s substr : List α) :
    Contains s substr = true ↔ substr <:+: s := by
  induction s with
  | nil => simp [Contains, List.isPrefixOf_iff_prefix]
  | cons c cs ih =>
    simp only [Contains, Bool.or_eq_true, List.isPrefixOf_iff_prefix, ih, List.infix_cons_iff]

theorem readAllLimited_fst (body : BodyStream) (n : Nat) :
    (readAllLimited body n).1 = body.data.take n := by
  unfold readAllLimited
  split_ifs with h
  · rfl
  · simp only
    rw [List.take_of_length_le (by omega)]

/-- The keyword flag of a fetched url, in terms of the bytes its body delivers. -/
theorem htmlRes_HasKeyword (net : Net) (req : BulkHTMLReq) (u : String) (resp : HTTPResponse)
    (hget : net.Get u (msToDuration (bulkHTMLTimeoutMs req)) = .ok resp) :
    (htmlRes net req u).HasKeyword = true
      ↔ req.Keyword ≠ [] ∧ req.Keyword <:+: resp.Body.data.take (200 * 1024) := by
  simp only [htmlRes, hget, readAllLimited_fst, Bool.and_eq_true, Contains_iff_infix]
  simp

/-- An infix of the first n elements of a list ends within those n. -/
theorem infix_take_occurrence {α : Type} {kw l : List α} {n : Nat} (h : kw <:+: l.take n) :
    ∃ pre post, l = pre ++ kw ++ post ∧ pre.length + kw.length ≤ n := by
  obtain ⟨s, t, hst⟩ := h
  refine ⟨s, t ++ l.drop n, ?_, ?_⟩
  · rw [← List.append_assoc, hst, List.take_append_drop]
  · have := congrArg List.length hst
    simp only [List.length_append, List.length_take] at this
    omega

theorem wrap64_of_range {x : Int} (h0 : 0 ≤ x) (h1 : x < 2 ^ 63) : wrap64 x = x := by
  unfold wrap64
  omega

theorem successRTTs_cons_ok (a : Attempt) (rest : List Attempt) (h : a.err = none) :
    successRTTs (a :: rest) = a.rtt :: successRTTs rest := by
  simp [successRTTs, h]

theorem successRTTs_cons_err (a : Attempt) (rest : List Attempt) (e : String)
    (h : a.err = some e) : successRTTs (a :: rest) = successRTTs rest := by
  simp [successRTTs, h]

/-- The loop of `runTCPing` counts the attempts that connected, sums their
round-trip times, and folds `min` and `max` over them. -/
theorem tcpingLoop_eq (attempts : List Attempt) :
    ∀ acc : TCPAcc, 0 ≤ acc.sumRTT → (∀ r ∈ successRTTs attempts, 0 ≤ r) →
      acc.sumRTT + (successRTTs attempts).sum < 2 ^ 63 →
      tcpingLoop attempts acc
        = ⟨acc.success + (successRTTs attempts).length,
           acc.sumRTT + (successRTTs attempts).sum,
           (successRTTs attempts).foldl min acc.min,
           (successRTTs attempts).foldl max acc.max⟩ := by
  induction attempts with
  | nil => intro acc _ _ _; simp [tcpingLoop, successRTTs]
  | cons a rest ih =>
    intro acc h0 hpos hsum
    cases herr : a.err with
    | some e =>
      rw [successRTTs_cons_err a rest e herr] at hpos hsum ⊢
      simp only [tcpingLoop, tcpingIter, herr]
      exact ih acc h0 hpos hsum
    | none =>
      rw [successRTTs_cons_ok a rest herr] at hpos hsum ⊢
      have ha : 0 ≤ a.rtt := hpos _ (by simp)
      have hrest : ∀ r ∈ successRTTs rest, 0 ≤ r := fun r hr => hpos r (by simp [hr])
      have hnn : 0 ≤ (successRTTs rest).sum := List.sum_nonneg hrest
      simp only [List.sum_cons] at hsum
      have h0i : (0 : Int) ≤ acc.sumRTT := h0
      have hai : (0 : Int) ≤ a.rtt := ha
      have hnni : (0 : Int) ≤ (successRTTs rest).sum := hnn
      have hsumi : @LT.lt Int _ (acc.sumRTT + (a.rtt + (successRTTs rest).sum)) (2 ^ 63) := hsum
      have hw : wrap64 (acc.sumRTT + a.rtt) = acc.sumRTT + a.rtt :=
        wrap64_of_range (by omega) (by omega)
      simp only [tcpingLoop, tcpingIter, herr]
      have hs0 : (0 : Int) ≤ wrap64 (acc.sumRTT + a.rtt) := by rw [hw]; omega
      have hs1 : wrap64 (acc.sumRTT + a.rtt) + (successRTTs rest).sum < 2 ^ 63 := by
        rw [hw]
        show @LT.lt Int _ (acc.sumRTT + a.rtt + (successRTTs rest).sum) (2 ^ 63)
        omega
      rw [ih _ hs0 hrest hs1]
      simp only [hw, List.length_cons, List.sum_cons, List.foldl_cons, TCPAcc.mk.injEq]
      refine ⟨by push_cast; ring, by ring, ?_, ?_⟩
      · congr 1
        rcases lt_or_le a.rtt acc.min with h | h
        · simp [h, min_eq_right h.le]
        · simp [not_lt.2 h, min_eq_left h]
      · congr 1
        rcases lt_or_le acc.max a.rtt with h | h
        · simp [h, max_eq_right h.le]
        · simp [not_lt.2 h, max_eq_left h]

theorem foldl_min_spec (l : List Int) : ∀ x : Int,
    l.foldl min x ≤ x ∧ (∀ r ∈ l, l.foldl min x ≤ r) ∧ (l.foldl min x = x ∨ l.foldl min x ∈ l) := by
  induction l with
  | nil => intro x; simp
  | cons a l ih =>
    intro x
    obtain ⟨h1, h2, h3⟩ := ih (min x a)
    simp only [List.foldl_cons, List.mem_cons, forall_eq_or_imp]
    refine ⟨le_trans h1 (min_le_left _ _), ⟨le_trans h1 (min_le_right _ _), h2⟩, ?_⟩
    rcases h3 with h3 | h3
    · rcases min_choice x a with hc | hc
      · left; rw [h3, hc]
      · right; left; rw [h3, hc]
    · right; right; exact h3

theorem foldl_max_spec (l : List Int) : ∀ x : Int,
    x ≤ l.foldl max x ∧ (∀ r ∈ l, r ≤ l.foldl max x) ∧ (l.foldl max x = x ∨ l.foldl max x ∈ l) := by
  induction l with
  | nil => intro x; simp
  | cons a l ih =>
    intro x
    obtain ⟨h1, h2, h3⟩ := ih (max x a)
    simp only [List.foldl_cons, List.mem_cons, forall_eq_or_imp]
    refine ⟨le_trans (le_max_left _ _) h1, ⟨le_trans (le_max_right _ _) h1, h2⟩, ?_⟩
    rcases h3 with h3 | h3
    · rcases max_choice x a with hc | hc
      · left; rw [h3, hc]
      · right; left; rw [h3, hc]
    · right; right; exact h3

theorem Milliseconds_of_nonneg {d : Duration} (h : 0 ≤ d) : Milliseconds d = d / 1000000 := by
  unfold Milliseconds
  exact Int.tdiv_eq_ediv h (by decide)

/-- What `runTCPing` reports when every round-trip time of a connected
attempt lies between zero and one hour (and their sum fits 64 bits): the
claimed statistics over the connected attempts. -/
theorem runTCPing_statistics (net : Net) (host : String) (port : Int) (timeout : Duration)
    (count : Int)
    (hrange : ∀ r ∈ successRTTs (dialAttempts net host port timeout count), 0 ≤ r ∧ r ≤ Hour)
    (hsum : (successRTTs (dialAttempts net host port timeout count)).sum < 2 ^ 63) :
    (successRTTs (dialAttempts net host port timeout count) = [] →
        runTCPing net host port timeout count
          = ([("packets_sent", .int count), ("packets_recv", .int 0),
              ("packet_loss", .int 100)], some "no tcp success"))
      ∧ (successRTTs (dialAttempts net host port timeout count) ≠ [] →
          ∃ mn mx,
            mn ∈ successRTTs (dialAttempts net host port timeout count)
            ∧ (∀ r ∈ successRTTs (dialAttempts net host port timeout count), mn ≤ r)
            ∧ mx ∈ successRTTs (dialAttempts net host port timeout count)
            ∧ (∀ r ∈ successRTTs (dialAttempts net host port timeout count), r ≤ mx)
            ∧ runTCPing net host port timeout count
              = ([("packets_sent", .int count),
                  ("packets_recv",
                    .int (successRTTs (dialAttempts net host port timeout count)).length),
                  ("packet_loss", .float (.mul (.div (.ofInt (count
                    - (successRTTs (dialAttempts net host port timeout count)).length))
                    (.ofInt count)) (.ofInt 100))),
                  ("avg_rtt_ms", .int ((successRTTs (dialAttempts net host port timeout
                    count)).sum
                    / ((successRTTs (dialAttempts net host port timeout count)).length
                      * 1000000))),
                  ("min_rtt_ms", .int (mn / 1000000)),
                  ("max_rtt_ms", .int (mx / 1000000))], none)) := by
  generalize hr : successRTTs (dialAttempts net host port timeout count) = rtts at hrange hsum
  have hloop := tcpingLoop_eq (dialAttempts net host port timeout count) ⟨0, 0, Hour, 0⟩
    (le_refl _) (by rw [hr]; exact fun r h => (hrange r h).1) (by rw [hr]; simpa using hsum)
  rw [hr] at hloop
  simp only [zero_add] at hloop
  constructor
  · intro hnil
    subst hnil
    simp [runTCPing, hloop, tcpingReport]
  · intro hne
    obtain ⟨r0, hr0⟩ := List.exists_mem_of_ne_nil rtts hne
    obtain ⟨m1, m2, m3⟩ := foldl_min_spec rtts Hour
    obtain ⟨x1, x2, x3⟩ := foldl_max_spec rtts 0
    have hmn : rtts.foldl min Hour ∈ rtts := by
      rcases m3 with h | h
      · have : r0 = rtts.foldl min Hour :=
          le_antisymm (by rw [h]; exact (hrange r0 hr0).2) (m2 r0 hr0)
        rw [← this]
        exact hr0
      · exact h
    have hmx : rtts.foldl max 0 ∈ rtts := by
      rcases x3 with h | h
      · have : r0 = rtts.foldl max 0 :=
          le_antisymm (x2 r0 hr0) (by rw [h]; exact (hrange r0 hr0).1)
        rw [← this]
        exact hr0
      · exact h
    refine ⟨_, _, hmn, m2, hmx, x2, ?_⟩
    have hlen : (rtts.length : Int) ≠ 0 := by
      simpa using hne
    have hsum0 : 0 ≤ rtts.sum := List.sum_nonneg fun r h => (hrange r h).1
    have havg : Milliseconds (Int.tdiv rtts.sum rtts.length)
        = rtts.sum / (rtts.length * 1000000) := by
      rw [Int.tdiv_eq_ediv hsum0 (by positivity),
        Milliseconds_of_nonneg (Int.ediv_nonneg hsum0 (by positivity))]
      obtain ⟨k, hk⟩ := Int.eq_ofNat_of_zero_le hsum0
      rw [hk]
      exact_mod_cast Nat.div_div_eq_div_mul k rtts.length 1000000
    simp only [runTCPing, hloop, tcpingReport, hlen, if_false, havg,
      Milliseconds_of_nonneg (hrange _ hmn).1, Milliseconds_of_nonneg (hrange _ hmx).1]

theorem filterMap_getElem?_range {α : Type} (l : List α) :
    (List.range l.length).filterMap (fun i => l[i]?) = l := by
  induction l using List.reverseRecOn with
  | nil => rfl
  | append_singleton xs x ih =>
    rw [List.length_append, List.length_singleton, List.range_succ, List.filterMap_append]
    have h1 : (List.range xs.length).filterMap (fun i => (xs ++ [x])[i]?)
        = (List.range xs.length).filterMap (fun i => xs[i]?) := by
      apply List.filterMap_congr
      intro i hi
      rw [List.getElem?_append_left (List.mem_range.1 hi)]
    rw [h1, ih]
    simp

/-- Every run of a batch can be continued until all its goroutines have
finished. -/
theorem Batch.finishes (b : Batch) (sched : List Choice) :
    ∃ ext, b.finished (sched ++ ext) = true := by
  cases b with
  | ping nets req =>
    obtain ⟨ext, -, hext⟩ := run_completes 25 (by decide)
      (bulkPing_programs nets req) List.length_mapIdx sched
    exact ⟨ext, hext⟩
  | html nets req =>
    obtain ⟨ext, -, hext⟩ := run_completes 20 (by decide)
      (bulkHTML_programs nets req) List.length_mapIdx sched
    exact ⟨ext, hext⟩

theorem exec_no_workers (semCap : Nat) {E : Type} (sched : List Choice) :
    exec semCap 0 sched (initState ([] : List (List (Action E)))) = initState [] := by
  induction sched with
  | nil => rfl
  | cons c cs ih =>
    cases c with
    | main => simpa [exec, step, stepMain, initState] using ih
    | worker i => simpa [exec, step, stepWorker, initState] using ih

/-! ## The claims -/

/-- C1 (as stated, refuted): with hosts `a, b` submitted in that order and
goroutine 1 completing before goroutine 0, both handlers return the entry of
`b` first: the results are in completion order, not in submission order. -/
theorem order_not_preserved :
    twoHosts.targets = ["a", "b"] ∧ twoHosts.resultTargets lateFirst = some ["b", "a"]
      ∧ twoURLs.targets = ["a", "b"] ∧ twoURLs.resultTargets lateFirst = some ["b", "a"] := by
  decide

/-- C1 (amended): whenever a batch call returns, the i-th entry of the results
carries the target of the i-th goroutine to have sent its entry; that
completion order is a permutation of the indices of the targets, and when it
is the submission order the results are in submission order. -/
theorem results_in_completion_order (b : Batch) (sched : List Choice) (labels : List String)
    (h : b.resultTargets sched = some labels) :
    labels = (b.order sched).filterMap (fun i => b.targets[i]?)
      ∧ (b.order sched).Perm (List.range b.targets.length)
      ∧ (b.order sched = List.range b.targets.length → labels = b.targets) := by
  obtain ⟨h1, h2, -⟩ := Batch.resultTargets_order b sched labels h
  refine ⟨h1, h2, fun hord => ?_⟩
  rw [h1, hord, filterMap_getElem?_range]

theorem results_in_completion_order_witness :
    ["b", "a"] = (twoHosts.order lateFirst).filterMap (fun i => twoHosts.targets[i]?)
      ∧ (twoHosts.order lateFirst).Perm (List.range twoHosts.targets.length)
      ∧ (twoHosts.order lateFirst = List.range twoHosts.targets.length
          → ["b", "a"] = twoHosts.targets) :=
  results_in_completion_order twoHosts lateFirst ["b", "a"] (by decide)

/-- C2: a batch over N >= 1 targets can always run until the handler returns,
and whenever it returns, whatever the probes did, the results have exactly N
entries and every target labels as many entries as it occurs in the input. -/
theorem batch_cardinality (b : Batch) (hne : b.targets ≠ []) (sched : List Choice) :
    (∃ ext labels, b.resultTargets (sched ++ ext) = some labels)
      ∧ ∀ labels, b.resultTargets sched = some labels →
          labels.length = b.targets.length ∧ ∀ t, labels.count t = b.targets.count t := by
  refine ⟨Batch.returns b hne sched, fun labels h => ?_⟩
  obtain ⟨-, -, hperm⟩ := Batch.resultTargets_order b sched labels h
  exact ⟨hperm.length_eq, fun t => hperm.count_eq t⟩

theorem batch_cardinality_witness :
    (∃ ext labels, twoURLs.resultTargets (lateFirst ++ ext) = some labels)
      ∧ ∀ labels, twoURLs.resultTargets lateFirst = some labels →
          labels.length = twoURLs.targets.length
            ∧ ∀ t, labels.count t = twoURLs.targets.count t :=
  batch_cardinality twoURLs (by decide) lateFirst

/-- C3 (the code at the failing input): `BulkHTMLHandler` has no empty-list
check; with `urls = []` it starts no goroutine and returns status 200 with an
empty results list under every schedule, while `BulkPingHandler` rejects
`hosts = []` with status 400. -/
theorem empty_batch_responses (nets : Nat → Net) (sched : List Choice) (kw : List UInt8)
    (count timeoutMs : Int) :
    BulkHTMLHandler nets (some ⟨[], kw, timeoutMs⟩) sched
        = some ⟨200, [("results", .htmlResults [])]⟩
      ∧ BulkPingHandler nets (some ⟨[], count, timeoutMs⟩) sched
        = some ⟨400, [("error", .str "no hosts")]⟩ := by
  refine ⟨?_, rfl⟩
  have h : bulkHTMLRun nets ⟨[], kw, timeoutMs⟩ sched = initState [] := exec_no_workers 20 sched
  simp [BulkHTMLHandler, h, initState]

/-- C6: in every state a batch can reach, the number of goroutines between
their acquire and their release is at most 25 for `BulkPingHandler` and at
most 20 for `BulkHTMLHandler`, however many targets were submitted. -/
theorem bounded_concurrency (b : Batch) (sched : List Choice) :
    b.inflight sched ≤ (match b with
      | .ping _ _ => 25
      | .html _ _ => 20) :=
  Batch.inflight_le b sched

/-- C7: on every path a batch goroutine acquires once, then probes, then sends
its entry and releases once; every run can be continued until all goroutines
have finished, and once they have the semaphore holds no token. -/
theorem token_non_leak (b : Batch) (sched : List Choice) (h : b.finished sched = true) :
    b.tokens sched = 0
      ∧ (∃ ext, b.finished (sched ++ ext) = true)
      ∧ (∀ net req host, ∃ probes e, probes ≠ [] ∧ pingWorker net req host
          = .acquire :: probes.map .probe ++ [.send e, .release])
      ∧ (∀ net req url, ∃ probes e, probes ≠ [] ∧ htmlWorker net req url
          = .acquire :: probes.map .probe ++ [.send e, .release]) := by
  refine ⟨Batch.tokens_zero b sched h, Batch.finishes b sched, ?_, ?_⟩
  · intro net req host
    unfold pingWorker
    split
    · exact ⟨[.icmp, .tcp], _, by simp, rfl⟩
    · exact ⟨[.icmp], _, by simp, rfl⟩
  · intro net req url
    unfold htmlWorker
    split
    · exact ⟨[.get], _, by simp, rfl⟩
    · exact ⟨[.get, .readBody], _, by simp, rfl⟩

theorem token_non_leak_witness :
    twoHosts.finished lateFirst = true ∧ twoHosts.tokens lateFirst = 0 :=
  ⟨by decide, (token_non_leak twoHosts lateFirst (by decide)).1⟩

/-- The results `BulkPingHandler` returns hold the entry of every goroutine. -/
theorem bulkPing_results_mem (nets : Nat → Net) (req : BulkPingReq) (sched : List Choice)
    (results : List entry) (i : Nat) (h : String)
    (hret : BulkPingHandler nets (some req) sched
      = some ⟨200, [("results", .pingResults results)]⟩)
    (hi : req.Hosts[i]? = some h) : pingEntry (nets i) req h ∈ results := by
  simp only [BulkPingHandler] at hret
  split_ifs at hret with h0 hlen
  · simp at hret
  · simp only [Option.some.injEq, Response.mk.injEq, List.cons.injEq, Prod.mk.injEq,
      Field.pingResults.injEq, and_true, true_and] at hret
    subst hret
    obtain ⟨-, -, hperm⟩ := run_results 25 (bulkPing_programs nets req) List.length_mapIdx
      sched hlen
    have e := filterMap_mapIdx pendingSend req.Hosts (fun i h => pingWorker (nets i) req h)
      (fun i h => pingEntry (nets i) req h) (fun i h => pingWorker_sends (nets i) req h)
    apply hperm.mem_iff.2
    have e2 : List.filterMap pendingSend (bulkPingInit nets req).workers
        = List.mapIdx (fun i h => pingEntry (nets i) req h) req.Hosts := e
    rw [e2]
    obtain ⟨hlt, hget⟩ := List.getElem?_eq_some.1 hi
    exact List.mem_mapIdx.2 ⟨i, hlt, by rw [hget]⟩

/-- The results `BulkHTMLHandler` returns hold the result of every goroutine. -/
theorem bulkHTML_results_mem (nets : Nat → Net) (req : BulkHTMLReq) (sched : List Choice)
    (results : List res) (i : Nat) (u : String)
    (hret : BulkHTMLHandler nets (some req) sched
      = some ⟨200, [("results", .htmlResults results)]⟩)
    (hi : req.URLs[i]? = some u) : htmlRes (nets i) req u ∈ results := by
  simp only [BulkHTMLHandler] at hret
  split_ifs at hret with hlen
  simp only [Option.some.injEq, Response.mk.injEq, List.cons.injEq, Prod.mk.injEq,
    Field.htmlResults.injEq, and_true, true_and] at hret
  subst hret
  obtain ⟨-, -, hperm⟩ := run_results 20 (bulkHTML_programs nets req) List.length_mapIdx
    sched hlen
  have e := filterMap_mapIdx pendingSend req.URLs (fun i u => htmlWorker (nets i) req u)
    (fun i u => htmlRes (nets i) req u) (fun i u => htmlWorker_sends (nets i) req u)
  apply hperm.mem_iff.2
  have e2 : List.filterMap pendingSend (bulkHTMLInit nets req).workers
      = List.mapIdx (fun i u => htmlRes (nets i) req u) req.URLs := e
  rw [e2]
  obtain ⟨hlt, hget⟩ := List.getElem?_eq_some.1 hi
  exact List.mem_mapIdx.2 ⟨i, hlt, by rw [hget]⟩

theorem pingEntry_double_failure (net : Net) (req : BulkPingReq) (h e1 e2 : String)
    (h1 : runICMPPing net h (bulkPingCount req) (msToDuration (bulkPingTimeoutMs req))
      = .error e1)
    (h2 : (runTCPing net h 80 (msToDuration (bulkPingTimeoutMs req)) (bulkPingCount req)).2
      = some e2) :
    pingEntry net req h = ⟨h, none, e1 ++ " | " ++ e2⟩ := by
  unfold pingEntry
  rw [h1]
  simp only
  split
  · rename_i heq
    rw [heq] at h2
    simp only [Option.some.injEq] at h2
    rw [h2]
  · rename_i heq
    rw [heq] at h2
    simp at h2

theorem PingHandler_double_failure (net : Net) (req : PingReq) (e1 e2 : String)
    (h1 : runICMPPing net req.Host (pingCount req) (msToDuration (pingTimeoutMs req))
      = .error e1)
    (h2 : (runTCPing net req.Host 80 (msToDuration (pingTimeoutMs req)) (pingCount req)).2
      = some e2) :
    PingHandler net (some req)
      = ⟨500, [("error", .str "ping failed"), ("detail", .str (e1 ++ " | " ++ e2))]⟩ := by
  unfold PingHandler
  simp only
  rw [h1]
  simp only
  split
  · rename_i heq
    rw [heq] at h2
    simp only [Option.some.injEq] at h2
    rw [h2]
  · rename_i heq
    rw [heq] at h2
    simp at h2

theorem infix_of_concat (e1 e2 : String) :
    e1.data <:+: (e1 ++ " | " ++ e2).data ∧ e2.data <:+: (e1 ++ " | " ++ e2).data := by
  constructor
  · exact ⟨[], (" | " ++ e2).data, by simp [String.data_append]⟩
  · exact ⟨(e1 ++ " | ").data, [], by simp [String.data_append]⟩

/-- C4 (the code at the failing input): for a host whose echo probe fails
and whose TCP probe succeeds, `PingHandler` answers with method
`tcp-fallback` and the TCP result, but the entry of `BulkPingHandler` holds
the same TCP result with no method tag, neither on the entry nor in `out`. -/
theorem bulk_fallback_entry_untagged :
    runTCPing noRawSocketNet "a" 80 (msToDuration 2000) 3 = (tcpThreeOfThree, none)
      ∧ PingHandler noRawSocketNet (some ⟨"a", 3, 2000⟩)
        = ⟨200, [("method", .str "tcp-fallback"), ("result", .map tcpThreeOfThree)]⟩
      ∧ BulkPingHandler (fun _ => noRawSocketNet) (some ⟨["a"], 3, 2000⟩) soloRun
        = some ⟨200, [("results", .pingResults [⟨"a", some tcpThreeOfThree, ""⟩])]⟩
      ∧ (entry.toJSON ⟨"a", some tcpThreeOfThree, ""⟩).lookup "method" = none
      ∧ tcpThreeOfThree.lookup "method" = none := by
  decide

/-- C5: when the echo probe of a target fails with cause e1 and its TCP
fallback fails with cause e2, the entry `BulkPingHandler` returns for that
target has `Out` unset and `Err = e1 ++ " | " ++ e2`, `PingHandler` answers
500 with that text as `detail`, and the text contains both e1 and e2. -/
theorem double_failure_message (nets : Nat → Net) (req : BulkPingReq) (sched : List Choice)
    (results : List entry) (i : Nat) (h e1 e2 : String)
    (hret : BulkPingHandler nets (some req) sched
      = some ⟨200, [("results", .pingResults results)]⟩)
    (hi : req.Hosts[i]? = some h)
    (h1 : runICMPPing (nets i) h (bulkPingCount req) (msToDuration (bulkPingTimeoutMs req))
      = .error e1)
    (h2 : (runTCPing (nets i) h 80 (msToDuration (bulkPingTimeoutMs req))
      (bulkPingCount req)).2 = some e2) :
    (⟨h, none, e1 ++ " | " ++ e2⟩ : entry) ∈ results
      ∧ (∀ preq : PingReq,
          runICMPPing (nets i) preq.Host (pingCount preq) (msToDuration (pingTimeoutMs preq))
            = .error e1 →
          (runTCPing (nets i) preq.Host 80 (msToDuration (pingTimeoutMs preq))
            (pingCount preq)).2 = some e2 →
          PingHandler (nets i) (some preq)
            = ⟨500, [("error", .str "ping failed"), ("detail", .str (e1 ++ " | " ++ e2))]⟩)
      ∧ e1.data <:+: (e1 ++ " | " ++ e2).data ∧ e2.data <:+: (e1 ++ " | " ++ e2).data := by
  refine ⟨?_, fun preq p1 p2 => PingHandler_double_failure (nets i) preq e1 e2 p1 p2,
    infix_of_concat e1 e2⟩
  rw [← pingEntry_double_failure (nets i) req h e1 e2 h1 h2]
  exact bulkPing_results_mem nets req sched results i h hret hi

theorem double_failure_message_witness :
    (⟨"a", none, "socket: operation not permitted | no tcp success"⟩ : entry)
        ∈ [(⟨"a", none, "socket: operation not permitted | no tcp success"⟩ : entry)]
      ∧ PingHandler deadNet (some ⟨"a", 0, 0⟩)
        = ⟨500, [("error", .str "ping failed"),
                 ("detail", .str "socket: operation not permitted | no tcp success")]⟩ :=
  have t := double_failure_message (fun _ => deadNet) ⟨["a"], 3, 2000⟩ soloRun
    [⟨"a", none, "socket: operation not permitted | no tcp success"⟩] 0 "a"
    "socket: operation not permitted" "no tcp success" (by decide) (by decide) rfl rfl
  ⟨t.1, t.2.1 ⟨"a", 0, 0⟩ rfl rfl⟩

/-- C8: for a url whose fetch succeeds, the `HasKeyword` of its entry in the
results of `BulkHTMLHandler` is true exactly when the keyword is non-empty
and occurs in the first 200*1024 bytes of the body; it is a function of
those bytes and the keyword alone, and it is false when every occurrence of
the keyword in the body ends beyond the cap. -/
theorem keyword_under_read_cap (nets : Nat → Net) (req : BulkHTMLReq) (sched : List Choice)
    (results : List res) (i : Nat) (u : String) (resp : HTTPResponse)
    (hret : BulkHTMLHandler nets (some req) sched
      = some ⟨200, [("results", .htmlResults results)]⟩)
    (hi : req.URLs[i]? = some u)
    (hget : (nets i).Get u (msToDuration (bulkHTMLTimeoutMs req)) = .ok resp) :
    htmlRes (nets i) req u ∈ results
      ∧ ((htmlRes (nets i) req u).HasKeyword = true
          ↔ req.Keyword ≠ [] ∧ req.Keyword <:+: resp.Body.data.take (200 * 1024))
      ∧ (htmlRes (nets i) req u).HasKeyword
          = ((req.Keyword != []) && Contains (resp.Body.data.take (200 * 1024)) req.Keyword)
      ∧ ((∀ pre post, resp.Body.data = pre ++ req.Keyword ++ post →
            200 * 1024 < pre.length + req.Keyword.length) →
          (htmlRes (nets i) req u).HasKeyword = false) := by
  have hiff := htmlRes_HasKeyword (nets i) req u resp hget
  refine ⟨bulkHTML_results_mem nets req sched results i u hret hi, hiff, ?_, fun hocc => ?_⟩
  · simp only [htmlRes, hget, readAllLimited_fst]
  · cases hk : (htmlRes (nets i) req u).HasKeyword with
    | false => rfl
    | true =>
      obtain ⟨pre, post, hdata, hle⟩ := infix_take_occurrence (hiff.1 hk).2
      have := hocc pre post hdata
      omega

theorem keyword_under_read_cap_witness :
    htmlRes abcNet ⟨["u"], [98, 99], 0⟩ "u" ∈ [(⟨"u", 200, true, 1, ""⟩ : res)]
      ∧ (htmlRes abcNet ⟨["u"], [98, 99], 0⟩ "u").HasKeyword = true :=
  have t := keyword_under_read_cap (fun _ => abcNet) ⟨["u"], [98, 99], 0⟩ soloRun
    [⟨"u", 200, true, 1, ""⟩] 0 "u" ⟨200, ⟨[97, 98, 99], none⟩⟩ (by decide) (by decide) rfl
  ⟨t.1, t.2.1.2 ⟨by decide, by decide⟩⟩

/-- C9 (the code at the failing input): one attempt that connects after two
hours makes `runTCPing` report `min_rtt_ms = 3600000`, the initial value of
`min`, next to `avg_rtt_ms = max_rtt_ms = 7200000`. -/
theorem runTCPing_min_stuck_at_one_hour :
    runTCPing slowNet "a" 80 (3 * Hour) 1
      = ([("packets_sent", .int 1), ("packets_recv", .int 1),
          ("packet_loss", .float (.mul (.div (.ofInt 0) (.ofInt 1)) (.ofInt 100))),
          ("avg_rtt_ms", .int 7200000), ("min_rtt_ms", .int 3600000),
          ("max_rtt_ms", .int 7200000)], none) := by
  decide

/-- C10 (the code at the failing input): a fetch that times out while the
body is read, after the status line and two bytes, gives an entry with status
code 200, a keyword flag computed from the two bytes and an empty `Error`. -/
theorem body_read_error_gives_measurement :
    BulkHTMLHandler (fun _ => stallNet) (some ⟨["u"], [97], 5000⟩) soloRun
        = some ⟨200, [("results", .htmlResults [⟨"u", 200, true, 1, ""⟩])]⟩
      ∧ (readAllLimited
          ⟨[97, 98], some "context deadline exceeded (Client.Timeout exceeded while reading body)"⟩
          (1024 * 200)).2
        = some "context deadline exceeded (Client.Timeout exceeded while reading body)" := by
  decide

end NetDiag
